import Mathlib

/-!
Shallow embedding of the alignment and dependency utilities in
scripts/syntax_utils.py.

Tokens are modelled as lists of characters and a document as a list of
tokens.  Python semantics carried over:

* str.lower and the regex character class \w are modelled over the basic
  Latin range via Char.toLower and Char.isAlphanum; the source restricts
  itself to exactly this behaviour on ASCII input.
* The regex substitutions of the two normalisation passes delete every
  matched character, i.e. they act as a per-character filter.
* The while-loops of the aligner are modelled by structural recursion on
  the still-unscanned suffix of the token list, carrying the numeric
  cursor alongside, and the depth walk carries the remaining fuel
  50 - depth so that the fuel-0 case is exactly the depth > 50 cut-off
  of the source.
-/

namespace SyntaxUtils

/-- The apostrophe character, written by code point. -/
def apos : Char := Char.ofNat 39

/-- Models the regex character class `\w` of `_punct_re_pass1`:
letters, digits and the underscore (basic Latin range). -/
def isWordChar (c : Char) : Bool :=
  c.isAlphanum || c = '_'

/-- A character survives pass 1 iff it is a word character, an apostrophe
or a hyphen (the regex deletes every `[^\w'-]` character). -/
def keepPass1 (c : Char) : Bool :=
  isWordChar c || c = apos || c = '-'

/-- `normalize_token_pass1`: lowercase, then delete every character that
is not a word character, an apostrophe or a hyphen. -/
def normalize_token_pass1 (s : List Char) : List Char :=
  (s.map Char.toLower).filter keepPass1

/-- A character survives pass 2 iff it is not an apostrophe and not a
hyphen (the regex of pass 2 deletes `['-]`). -/
def keepPass2 (c : Char) : Bool :=
  !(c = apos || c = '-')

/-- `normalize_token_pass2`: pass 1, then additionally delete apostrophes
and hyphens. -/
def normalize_token_pass2 (s : List Char) : List Char :=
  (normalize_token_pass1 s).filter keepPass2

/-- Python `str.strip()`: drop whitespace from both ends. -/
def strip (s : List Char) : List Char :=
  ((s.dropWhile Char.isWhitespace).reverse.dropWhile Char.isWhitespace).reverse

/-- The `while j < N and doc_tokens[j].strip() != raw: j += 1` loop of the
pure-punctuation branch.  `ts` is the suffix `doc_tokens[j:]` of the
document and `j` the numeric cursor; the returned value is the final
cursor. -/
def punctLoop (raw : List Char) : List (List Char) → Nat → Nat
  | [], j => j
  | t :: ts, j => if strip t = raw then j else punctLoop raw ts (j + 1)

/-- The inner `for w in range(1, max_window + 1)` loop of the general
branch, tried at a fixed window start whose document suffix is `rest`.
`w` is the current window width and `fuel` the number of widths still
allowed (`fuel = maxW + 1 - w`), so fuel 0 is the exit of the range.
A width `w` with `k + w > N` (that is `w > rest.length`) hits the
`break`; since every later width is larger as well, the break is
modelled by returning `none`.  On success the matched width is
returned. -/
def tryWindowsAux (t1 t2 : List Char) (rest : List (List Char)) :
    Nat → Nat → Option Nat
  | 0, _ => none
  | fuel + 1, w =>
    if rest.length < w then none
    else if ((rest.take w).map normalize_token_pass1).flatten = t1 then some w
    else if ((rest.take w).map normalize_token_pass2).flatten = t2 then some w
    else tryWindowsAux t1 t2 rest fuel (w + 1)

/-- All window widths `1, ..., maxW` at one start position. -/
def tryWindows (maxW : Nat) (t1 t2 : List Char) (rest : List (List Char)) :
    Option Nat :=
  tryWindowsAux t1 t2 rest maxW 1

/-- The outer `while k < N and not matched` loop of the general branch.
`rest` is the suffix `doc_tokens[k:]` and `k` the numeric start cursor;
on success the start position `k` and the matched width are returned. -/
def scanLoop (maxW : Nat) (t1 t2 : List Char) :
    List (List Char) → Nat → Option (Nat × Nat)
  | [], _ => none
  | t :: ts, k =>
    match tryWindows maxW t1 t2 (t :: ts) with
    | some w => some (k, w)
    | none => scanLoop maxW t1 t2 ts (k + 1)

/-- One iteration of the `for i, aoi_tok in enumerate(aoi_tokens)` loop:
given the incoming cursor `j` and one AOI token, produce the mapping
entry for that token together with the outgoing cursor. -/
def alignStep (doc : List (List Char)) (maxW : Nat) (j : Nat)
    (tok : List Char) : Option Nat × Nat :=
  let raw := strip tok
  let t1 := normalize_token_pass1 tok
  let t2 := normalize_token_pass2 tok
  if t1 = [] ∧ raw ≠ [] then
    let j2 := punctLoop raw (doc.drop j) j
    if j2 < doc.length ∧ strip (doc.getD j2 []) = raw then (some j2, j2 + 1)
    else (none, j2)
  else if t1 = [] then (none, j)
  else
    match scanLoop maxW t1 t2 (doc.drop j) j with
    | some kw => (some kw.1, kw.1 + kw.2)
    | none => (none, min (j + 1) doc.length)

/-- The main loop over the AOI tokens, threading the cursor. -/
def alignGo (doc : List (List Char)) (maxW : Nat) :
    Nat → List (List Char) → List (Option Nat)
  | _, [] => []
  | j, tok :: rest =>
    let r := alignStep doc maxW j tok
    r.1 :: alignGo doc maxW r.2 rest

/-- `align_aoi_to_spacy_windowed`: greedy left-to-right alignment of the
AOI tokens against the document tokens, one mapping entry per AOI
token. -/
def align_aoi_to_spacy_windowed (aoi_tokens doc_tokens : List (List Char))
    (max_window : Nat) : List (Option Nat) :=
  alignGo doc_tokens max_window 0 aoi_tokens

/-- A parsed document as the dependency metrics see it: a head reference
per token position (an index into the same document, the position itself
for a sentence root) and the list of sentence spans, each a half-open
interval of positions. -/
structure SpacyDoc where
  heads : Nat → Nat
  sents : List (Nat × Nat)

/-- The span-search loop of `dep_distance`: runs over the whole span list
without an early exit, so the last containing span wins and the result is
`none` when no span contains the position. -/
def findSentLast (sents : List (Nat × Nat)) (i : Nat) : Option (Nat × Nat) :=
  sents.foldl (fun acc s => if s.1 ≤ i ∧ i < s.2 then some s else acc) none

/-- The span-search loop of `dep_depth`: exits at the first containing
span. -/
def findSentFirst (sents : List (Nat × Nat)) (i : Nat) : Option (Nat × Nat) :=
  sents.find? (fun s => decide (s.1 ≤ i ∧ i < s.2))

/-- `dep_distance`: 0 for a root, 0 when the spans found for the token and
for its head differ, otherwise the absolute positional difference. -/
def dep_distance (d : SpacyDoc) (i : Nat) : Nat :=
  if d.heads i = i then 0
  else if findSentLast d.sents i ≠ findSentLast d.sents (d.heads i) then 0
  else ((i : Int) - (d.heads i : Int)).natAbs

/-- Does the `if token_sent:` guard of the depth walk fire for the node
`c`, i.e. is there a recorded span for the start token and does `c` fall
outside it? -/
def outsideSpan (ts : Option (Nat × Nat)) (c : Nat) : Bool :=
  match ts with
  | some s => !(decide (s.1 ≤ c ∧ c < s.2))
  | none => false

/-- The `while current.head != current` walk of `dep_depth`.  Each
iteration counts the step first, then breaks on an out-of-span target,
then breaks when the new depth exceeds 50.  `fuel` is kept equal to
`50 - depth`, so fuel 0 together with one more step is exactly
`depth > 50`. -/
def depLoop (d : SpacyDoc) (ts : Option (Nat × Nat)) :
    Nat → Nat → Nat → Nat
  | fuel, depth, current =>
    if d.heads current = current then depth
    else if outsideSpan ts (d.heads current) then depth + 1
    else match fuel with
      | 0 => depth + 1
      | fuel2 + 1 => depLoop d ts fuel2 (depth + 1) (d.heads current)

/-- `dep_depth`: number of head-following steps from the token, stopped at
its sentence root, at a step that leaves the sentence span of the token,
or by the 50-step safety cut-off. -/
def dep_depth (d : SpacyDoc) (i : Nat) : Nat :=
  depLoop d (findSentFirst d.sents i) 50 0 i

/-! ### Character-level helper lemmas -/

theorem toNat_ofNat_valid {m : Nat} (h : m.isValidChar) :
    (Char.ofNat m).toNat = m := by
  rw [Char.ofNat, dif_pos h]; rfl

theorem toLower_toLower (c : Char) : c.toLower.toLower = c.toLower := by
  simp only [Char.toLower]
  by_cases h : c.toNat ≥ 65 ∧ c.toNat ≤ 90
  · rw [if_pos h]
    have hv : (c.toNat + 32).isValidChar := Or.inl (by omega)
    rw [toNat_ofNat_valid hv, if_neg (by omega)]
  · rw [if_neg h, if_neg h]

theorem uint32_le_iff {a b : UInt32} : a ≤ b ↔ a.toNat ≤ b.toNat := by
  simp [UInt32.le_def, BitVec.le_def, UInt32.toNat]

theorem toLower_of_keepPass1_eq_false {c : Char} (h : keepPass1 c = false) :
    c.toLower = c := by
  simp only [Char.toLower]
  split
  · next hc =>
    exfalso
    have h1 : (65 : UInt32) ≤ c.val := uint32_le_iff.mpr hc.1
    have h2 : c.val ≤ (90 : UInt32) := uint32_le_iff.mpr hc.2
    have hu : c.isUpper = true := by simp [Char.isUpper, h1, h2]
    have ha : c.isAlphanum = true := by simp [Char.isAlphanum, Char.isAlpha, hu]
    simp [keepPass1, isWordChar, ha] at h
  · rfl

/-! ### Normalizer-level helper lemmas -/

theorem mem_pass1 {s : List Char} {c : Char}
    (h : c ∈ normalize_token_pass1 s) :
    keepPass1 c = true ∧ c.toLower = c := by
  unfold normalize_token_pass1 at h
  have hk := List.of_mem_filter h
  have hm := List.mem_of_mem_filter h
  rcases List.mem_map.1 hm with ⟨a, _, rfl⟩
  exact ⟨hk, toLower_toLower a⟩

theorem map_toLower_of_fixed {l : List Char} (h : ∀ c ∈ l, c.toLower = c) :
    l.map Char.toLower = l := by
  induction l with
  | nil => rfl
  | cons a t ih =>
    simp only [List.map_cons]
    rw [h a (List.mem_cons_self a t), ih (fun c hc => h c (List.mem_cons_of_mem a hc))]

theorem pass1_fixed {l : List Char}
    (h : ∀ c ∈ l, keepPass1 c = true ∧ c.toLower = c) :
    normalize_token_pass1 l = l := by
  unfold normalize_token_pass1
  rw [map_toLower_of_fixed (fun c hc => (h c hc).2),
    List.filter_eq_self.2 (fun c hc => by simpa using (h c hc).1)]

theorem pass1_idem (s : List Char) :
    normalize_token_pass1 (normalize_token_pass1 s) = normalize_token_pass1 s :=
  pass1_fixed (fun _ hc => mem_pass1 hc)

theorem pass2_of_pass1 (s : List Char) :
    normalize_token_pass2 (normalize_token_pass1 s) = normalize_token_pass2 s := by
  unfold normalize_token_pass2
  rw [pass1_idem]

theorem pass2_idem (s : List Char) :
    normalize_token_pass2 (normalize_token_pass2 s) = normalize_token_pass2 s := by
  have hfix : normalize_token_pass1 (normalize_token_pass2 s) =
      normalize_token_pass2 s := by
    refine pass1_fixed (fun c hc => ?_)
    unfold normalize_token_pass2 at hc
    exact mem_pass1 (List.mem_of_mem_filter hc)
  show (normalize_token_pass1 (normalize_token_pass2 s)).filter keepPass2
      = normalize_token_pass2 s
  rw [hfix]
  show ((normalize_token_pass1 s).filter keepPass2).filter keepPass2
      = (normalize_token_pass1 s).filter keepPass2
  rw [List.filter_filter]
  exact List.filter_congr (fun c _ => by cases keepPass2 c <;> simp)

/-! ### Aligner-level helper lemmas -/

theorem punctLoop_ge (raw : List Char) (ts : List (List Char)) :
    ∀ j : Nat, j ≤ punctLoop raw ts j := by
  induction ts with
  | nil => intro j; simp [punctLoop]
  | cons t ts ih =>
    intro j
    unfold punctLoop
    split
    · exact Nat.le_refl j
    · exact Nat.le_trans (Nat.le_succ j) (ih (j + 1))

theorem punctLoop_le (raw : List Char) (ts : List (List Char)) :
    ∀ j : Nat, punctLoop raw ts j ≤ j + ts.length := by
  induction ts with
  | nil => intro j; simp [punctLoop]
  | cons t ts ih =>
    intro j
    unfold punctLoop
    split
    · exact Nat.le_add_right j _
    · calc punctLoop raw ts (j + 1) ≤ (j + 1) + ts.length := ih (j + 1)
        _ = j + (t :: ts).length := by simp [List.length_cons]; omega

theorem punctLoop_all_ne (raw : List Char) (ts : List (List Char))
    (h : ∀ t ∈ ts, strip t ≠ raw) :
    ∀ j : Nat, punctLoop raw ts j = j + ts.length := by
  induction ts with
  | nil => intro j; simp [punctLoop]
  | cons t ts ih =>
    intro j
    unfold punctLoop
    rw [if_neg (h t (List.mem_cons_self t ts))]
    rw [ih (fun u hu => h u (List.mem_cons_of_mem t hu)) (j + 1)]
    simp [List.length_cons]
    omega

theorem tryWindowsAux_some {t1 t2 : List Char} {rest : List (List Char)}
    {fuel w w2 : Nat} (h : tryWindowsAux t1 t2 rest fuel w = some w2) :
    w ≤ w2 ∧ w2 ≤ rest.length := by
  induction fuel generalizing w with
  | zero => simp [tryWindowsAux] at h
  | succ fuel ih =>
    unfold tryWindowsAux at h
    split at h
    · exact absurd h (by simp)
    · next hlen =>
      split at h
      · cases h
        exact ⟨Nat.le_refl _, Nat.le_of_not_lt hlen⟩
      · split at h
        · cases h
          exact ⟨Nat.le_refl _, Nat.le_of_not_lt hlen⟩
        · have := ih h
          exact ⟨Nat.le_trans (Nat.le_succ w) this.1, this.2⟩

theorem scanLoop_some {maxW : Nat} {t1 t2 : List Char}
    {ts : List (List Char)} {k : Nat} {p : Nat × Nat}
    (h : scanLoop maxW t1 t2 ts k = some p) :
    k ≤ p.1 ∧ 1 ≤ p.2 ∧ p.1 + p.2 ≤ k + ts.length := by
  induction ts generalizing k with
  | nil => simp [scanLoop] at h
  | cons t ts ih =>
    unfold scanLoop at h
    split at h
    · next w hw =>
      cases h
      have := tryWindowsAux_some hw
      exact ⟨Nat.le_refl _, this.1, Nat.add_le_add_left this.2 _⟩
    · have := ih h
      refine ⟨Nat.le_trans (Nat.le_succ k) this.1, this.2.1, ?_⟩
      calc p.1 + p.2 ≤ (k + 1) + ts.length := this.2.2
        _ = k + (t :: ts).length := by simp [List.length_cons]; omega

theorem alignStep_spec (doc : List (List Char)) (maxW j : Nat)
    (tok : List Char) (hj : j ≤ doc.length) :
    (j ≤ (alignStep doc maxW j tok).2 ∧
      (alignStep doc maxW j tok).2 ≤ doc.length) ∧
    ∀ p : Nat, (alignStep doc maxW j tok).1 = some p →
      j ≤ p ∧ p < (alignStep doc maxW j tok).2 := by
  have hp1 := punctLoop_ge (strip tok) (doc.drop j) j
  have hp2 := punctLoop_le (strip tok) (doc.drop j) j
  rw [List.length_drop] at hp2
  simp only [alignStep]
  split
  · split
    · next h2 =>
      dsimp only
      exact ⟨⟨by omega, by omega⟩, fun p hp => by cases hp; omega⟩
    · dsimp only
      exact ⟨⟨hp1, by omega⟩, fun p hp => by cases hp⟩
  · split
    · dsimp only
      exact ⟨⟨Nat.le_refl j, hj⟩, fun p hp => by cases hp⟩
    · split
      · next kw hkw =>
        have hs := scanLoop_some hkw
        rw [List.length_drop] at hs
        dsimp only
        exact ⟨⟨by omega, by omega⟩, fun p hp => by cases hp; omega⟩
      · dsimp only
        exact ⟨⟨by omega, by omega⟩, fun p hp => by cases hp⟩

theorem alignGo_length (doc : List (List Char)) (maxW : Nat) :
    ∀ (aoi : List (List Char)) (j : Nat),
      (alignGo doc maxW j aoi).length = aoi.length := by
  intro aoi
  induction aoi with
  | nil => intro j; rfl
  | cons t ts ih => intro j; simp [alignGo, ih]

theorem alignGo_lb (doc : List (List Char)) (maxW : Nat) :
    ∀ (aoi : List (List Char)) (j : Nat), j ≤ doc.length →
      ∀ p : Nat, some p ∈ alignGo doc maxW j aoi → j ≤ p := by
  intro aoi
  induction aoi with
  | nil => intro j _ p hp; simp [alignGo] at hp
  | cons t ts ih =>
    intro j hj p hp
    simp only [alignGo, List.mem_cons] at hp
    rcases hp with hp | hp
    · exact ((alignStep_spec doc maxW j t hj).2 p hp.symm).1
    · have hstep := (alignStep_spec doc maxW j t hj).1
      exact Nat.le_trans hstep.1 (ih _ hstep.2 p hp)

theorem alignGo_pairwise (doc : List (List Char)) (maxW : Nat) :
    ∀ (aoi : List (List Char)) (j : Nat), j ≤ doc.length →
      ((alignGo doc maxW j aoi).filterMap id).Pairwise (· < ·) := by
  intro aoi
  induction aoi with
  | nil => intro j _; simp [alignGo]
  | cons t ts ih =>
    intro j hj
    have hstep := alignStep_spec doc maxW j t hj
    simp only [alignGo]
    cases hm : (alignStep doc maxW j t).1 with
    | none =>
      rw [List.filterMap_cons]
      exact ih _ hstep.1.2
    | some p =>
      rw [List.filterMap_cons]
      show ((p :: List.filterMap id
        (alignGo doc maxW (alignStep doc maxW j t).2 ts)).Pairwise (· < ·))
      refine List.Pairwise.cons ?_ (ih _ hstep.1.2)
      intro q hq
      have hq2 : some q ∈ alignGo doc maxW (alignStep doc maxW j t).2 ts := by
        rcases List.mem_filterMap.1 hq with ⟨a, ha, hae⟩
        simp only [id] at hae
        rwa [hae] at ha
      have hub := alignGo_lb doc maxW ts _ hstep.1.2 q hq2
      have hpj := hstep.2 p hm
      omega

theorem alignStep_nil_doc (maxW j : Nat) (tok : List Char) :
    (alignStep [] maxW j tok).1 = none := by
  simp only [alignStep]
  split
  · split
    · next h2 => exact absurd h2.1 (by simp)
    · rfl
  · split
    · rfl
    · split
      · next kw hkw => simp [List.drop_nil, scanLoop] at hkw
      · rfl

/-! ### Depth-walk helper lemmas -/

theorem depLoop_le (d : SpacyDoc) (ts : Option (Nat × Nat)) :
    ∀ fuel depth c : Nat, depLoop d ts fuel depth c ≤ depth + fuel + 1 := by
  intro fuel
  induction fuel with
  | zero =>
    intro depth c
    unfold depLoop
    split
    · omega
    · split
      · omega
      · show depth + 1 ≤ depth + 0 + 1
        omega
  | succ fuel ih =>
    intro depth c
    unfold depLoop
    split
    · omega
    · split
      · omega
      · show depLoop d ts fuel (depth + 1) (d.heads c) ≤ depth + (fuel + 1) + 1
        calc depLoop d ts fuel (depth + 1) (d.heads c)
            ≤ (depth + 1) + fuel + 1 := ih (depth + 1) (d.heads c)
          _ = depth + (fuel + 1) + 1 := by omega

theorem depLoop_outside (d : SpacyDoc) (ts : Option (Nat × Nat))
    (fuel depth c : Nat) (hroot : d.heads c ≠ c)
    (hout : outsideSpan ts (d.heads c) = true) :
    depLoop d ts fuel depth c = depth + 1 := by
  unfold depLoop
  rw [if_neg hroot, if_pos hout]

theorem alignGo_nil_doc (maxW : Nat) :
    ∀ (aoi : List (List Char)) (j : Nat),
      alignGo [] maxW j aoi = List.replicate aoi.length none := by
  intro aoi
  induction aoi with
  | nil => intro j; rfl
  | cons t ts ih =>
    intro j
    simp only [alignGo, List.length_cons, List.replicate_succ]
    rw [alignStep_nil_doc maxW j t, ih]

/-! ### Claim theorems -/

/-- C1: for every pair of AOI and annotation token sequences and every max
window width, the matched (non-unmatched) annotation positions in the
mapping returned by `align_aoi_to_spacy_windowed`, read in AOI order, are
strictly increasing; hence (the list of matched positions having no
duplicate) each annotation-token position is claimed by at most one AOI
token. -/
theorem C1_matched_strictly_increasing (aoi doc : List (List Char))
    (maxW : Nat) :
    ((align_aoi_to_spacy_windowed aoi doc maxW).filterMap id).Pairwise
      (· < ·) ∧
    ((align_aoi_to_spacy_windowed aoi doc maxW).filterMap id).Nodup :=
  have h := alignGo_pairwise doc maxW aoi 0 (Nat.zero_le _)
  ⟨h, h.imp Nat.ne_of_lt⟩

/-- C6: the mapping has exactly one entry per AOI token; aligning any AOI
sequence against an empty annotation sequence yields an entirely
unmatched mapping of the same length, and an empty AOI sequence yields
the empty mapping. -/
theorem C6_mapping_shape (aoi doc : List (List Char)) (maxW : Nat) :
    (align_aoi_to_spacy_windowed aoi doc maxW).length = aoi.length ∧
    align_aoi_to_spacy_windowed aoi [] maxW =
      List.replicate aoi.length none ∧
    align_aoi_to_spacy_windowed [] doc maxW = [] :=
  ⟨alignGo_length doc maxW aoi 0, alignGo_nil_doc maxW aoi 0, rfl⟩

/-- C10: both normalization passes are idempotent and pass 2 absorbs
pass 1, so normalized forms are stable under re-normalization. -/
theorem C10_normalization_stable (s : List Char) :
    normalize_token_pass1 (normalize_token_pass1 s) =
      normalize_token_pass1 s ∧
    normalize_token_pass2 (normalize_token_pass2 s) =
      normalize_token_pass2 s ∧
    normalize_token_pass2 (normalize_token_pass1 s) =
      normalize_token_pass2 s :=
  ⟨pass1_idem s, pass2_idem s, pass2_of_pass1 s⟩

/-- C7: pass 1 lowercases and keeps only word characters, apostrophes and
hyphens; pass 2 additionally drops apostrophes and hyphens; both are total,
send the empty string to the empty string and any punctuation-only string
to the empty string; concrete values on won~t, Hello-comma and bang-at-hash
as the spec lists them. -/
theorem C7_normalizer_contract :
    normalize_token_pass1 ['w', 'o', 'n', apos, 't'] =
      ['w', 'o', 'n', apos, 't'] ∧
    normalize_token_pass2 ['w', 'o', 'n', apos, 't'] = ['w', 'o', 'n', 't'] ∧
    normalize_token_pass1 ['H', 'e', 'l', 'l', 'o', ','] =
      ['h', 'e', 'l', 'l', 'o'] ∧
    normalize_token_pass2 ['!', '@', '#'] = [] ∧
    normalize_token_pass1 [] = [] ∧ normalize_token_pass2 [] = [] ∧
    (∀ s : List Char, (∀ c ∈ s, keepPass1 c = false) →
      normalize_token_pass1 s = [] ∧ normalize_token_pass2 s = []) ∧
    (∀ (s : List Char) (c : Char), c ∈ normalize_token_pass1 s →
      keepPass1 c = true) ∧
    (∀ (s : List Char) (c : Char), c ∈ normalize_token_pass2 s →
      keepPass1 c = true ∧ keepPass2 c = true) := by
  refine ⟨by decide, by decide, by decide, by decide, rfl, rfl, ?_, ?_, ?_⟩
  · intro s h
    have h1 : normalize_token_pass1 s = [] := by
      unfold normalize_token_pass1
      refine List.filter_eq_nil_iff.2 (fun a ha => ?_)
      rcases List.mem_map.1 ha with ⟨c, hc, rfl⟩
      rw [toLower_of_keepPass1_eq_false (h c hc)]
      simp [h c hc]
    exact ⟨h1, by unfold normalize_token_pass2; rw [h1]; rfl⟩
  · exact fun s c hc => (mem_pass1 hc).1
  · intro s c hc
    unfold normalize_token_pass2 at hc
    exact ⟨(mem_pass1 (List.mem_of_mem_filter hc)).1, List.of_mem_filter hc⟩

theorem C7_witness :
    normalize_token_pass1 ['!', '@', '#'] = [] ∧
    normalize_token_pass2 ['!', '@', '#'] = [] :=
  C7_normalizer_contract.2.2.2.2.2.2.1 ['!', '@', '#'] (by decide)

/-- C2 counterexample: for the AOI token consisting of a semicolon against
the single annotation token a, the pass-1 form is empty, the raw text is
non-empty, no annotation token at or after cursor 0 matches it literally,
yet the step leaves the cursor at 1 (the end of the sequence), not at 0 as
the claim states; consequently the following AOI token a, which would
match at position 0, stays unmatched as well. -/
theorem C2_counterexample :
    normalize_token_pass1 [';'] = [] ∧ strip [';'] ≠ [] ∧
    (∀ t ∈ ([['a']] : List (List Char)), strip t ≠ strip [';']) ∧
    (alignStep [['a']] 4 0 [';']).1 = none ∧
    (alignStep [['a']] 4 0 [';']).2 = 1 ∧
    align_aoi_to_spacy_windowed [[';'], ['a']] [['a']] 4 =
      [none, none] := by
  decide

/-- C2 amended: for a punctuation-only AOI token (empty pass-1 form,
non-empty stripped raw text) with no literal match at or after the cursor,
the AOI token is left unmatched and the cursor is set to the length of
the annotation sequence (the failed scan runs the cursor off the end),
not kept at its previous position. -/
theorem C2_amended_cursor_to_end (doc : List (List Char)) (maxW j : Nat)
    (tok : List Char) (hj : j ≤ doc.length)
    (hpunct : normalize_token_pass1 tok = []) (hraw : strip tok ≠ [])
    (hnone : ∀ t ∈ doc.drop j, strip t ≠ strip tok) :
    alignStep doc maxW j tok = (none, doc.length) := by
  have hloop := punctLoop_all_ne (strip tok) (doc.drop j) hnone j
  rw [List.length_drop] at hloop
  have hN : j + (doc.length - j) = doc.length := by omega
  rw [hN] at hloop
  simp only [alignStep]
  rw [if_pos ⟨hpunct, hraw⟩, hloop, if_neg]
  intro hcon
  exact absurd hcon.1 (lt_irrefl _)

theorem C2_witness : alignStep [['a']] 4 0 [';'] = (none, 1) :=
  C2_amended_cursor_to_end [['a']] 4 0 [';'] (by decide) (by decide)
    (by decide) (by decide)

/-- C3 counterexample: token 0 lies in the recorded span (0, 2) and its
head is position 5, outside that span, so the claim predicts depth 0 (the
out-of-span step contributing nothing); the code returns 1 because the
step is counted before the walk stops. -/
theorem C3_counterexample :
    (SpacyDoc.mk (fun i => if i = 0 then 5 else i) [(0, 2)]).heads 0 ≠ 0 ∧
    findSentFirst [(0, 2)] 0 = some (0, 2) ∧
    outsideSpan (some (0, 2)) 5 = true ∧
    dep_depth (SpacyDoc.mk (fun i => if i = 0 then 5 else i) [(0, 2)]) 0
      = 1 := by
  decide

/-- C3 amended: when a head-following step lands outside the recorded
span, the walk stops immediately after that step but the step is counted:
from accumulated depth `depth` the walk returns `depth + 1`, and a token
whose first head step leaves its span gets depth 1. -/
theorem C3_amended_out_of_span_step_counted (d : SpacyDoc) (s : Nat × Nat)
    (fuel depth c : Nat) (hroot : d.heads c ≠ c)
    (hout : ¬(s.1 ≤ d.heads c ∧ d.heads c < s.2)) :
    depLoop d (some s) fuel depth c = depth + 1 ∧
    (findSentFirst d.sents c = some s → dep_depth d c = 1) := by
  have houtb : outsideSpan (some s) (d.heads c) = true := by
    simp [outsideSpan, hout]
  refine ⟨depLoop_outside d (some s) fuel depth c hroot houtb,
    fun hfind => ?_⟩
  unfold dep_depth
  rw [hfind]
  exact depLoop_outside d (some s) 50 0 c hroot houtb

theorem C3_witness :
    dep_depth (SpacyDoc.mk (fun i => if i = 0 then 5 else i) [(0, 2)]) 0
      = 1 :=
  (C3_amended_out_of_span_step_counted
    (SpacyDoc.mk (fun i => if i = 0 then 5 else i) [(0, 2)]) (0, 2)
    50 0 0 (by decide) (by decide)).2 (by decide)

/-- C4 counterexample: on a two-cycle of head pointers with no sentence
spans, the walk runs 51 steps before the depth check fires, so dep_depth
returns 51, exceeding the bound of 50 stated by the claim. -/
theorem C4_counterexample :
    dep_depth (SpacyDoc.mk (fun i => if i = 0 then 1 else 0) []) 0 = 51 ∧
    ¬(dep_depth (SpacyDoc.mk (fun i => if i = 0 then 1 else 0) []) 0
      ≤ 50) := by
  decide

/-- C4 amended: for every input token, including malformed or cyclic head
data, dep_depth is at least 0 and never exceeds 51 (the guard stops the
walk only after the depth has already been incremented past 50). -/
theorem C4_amended_depth_bounds (d : SpacyDoc) (i : Nat) :
    0 ≤ dep_depth d i ∧ dep_depth d i ≤ 51 := by
  refine ⟨Nat.zero_le _, ?_⟩
  unfold dep_depth
  exact depLoop_le d _ 50 0 i

/-- C5: dep_distance returns 0 when the token is its own head; returns 0
as a defined fallback when the span found for the token differs from the
span found for its head; and otherwise returns the absolute difference
between the token position and its head position. -/
theorem C5_dep_distance_cases (d : SpacyDoc) (i : Nat) :
    (d.heads i = i → dep_distance d i = 0) ∧
    (d.heads i ≠ i →
      findSentLast d.sents i ≠ findSentLast d.sents (d.heads i) →
      dep_distance d i = 0) ∧
    (d.heads i ≠ i →
      findSentLast d.sents i = findSentLast d.sents (d.heads i) →
      dep_distance d i = ((i : Int) - (d.heads i : Int)).natAbs) := by
  unfold dep_distance
  refine ⟨fun h => by rw [if_pos h], fun h hs => ?_, fun h hs => ?_⟩
  · rw [if_neg h, if_pos hs]
  · rw [if_neg h, if_neg (fun hne => hne hs)]

theorem C5_witness :
    dep_distance (SpacyDoc.mk (fun _ => 0) [(0, 3)]) 0 = 0 ∧
    dep_distance
      (SpacyDoc.mk (fun i => if i = 2 then 0 else i) [(0, 1), (1, 3)]) 2
      = 0 ∧
    dep_distance (SpacyDoc.mk (fun i => if i = 2 then 0 else i) [(0, 3)]) 2
      = 2 :=
  ⟨(C5_dep_distance_cases (SpacyDoc.mk (fun _ => 0) [(0, 3)]) 0).1
      (by decide),
   (C5_dep_distance_cases
      (SpacyDoc.mk (fun i => if i = 2 then 0 else i) [(0, 1), (1, 3)]) 2).2.1
      (by decide) (by decide),
   by
    rw [(C5_dep_distance_cases
      (SpacyDoc.mk (fun i => if i = 2 then 0 else i) [(0, 3)]) 2).2.2
      (by decide) (by decide)]
    decide⟩

/-- C8: an AOI token with empty pass-1 form and non-empty stripped raw
text is handled exclusively by the literal punctuation branch: the step
result does not depend on the window width at all, and any position it
matches carries an annotation token whose stripped text equals the raw
AOI text literally — never an empty-concatenation window match. -/
theorem C8_empty_form_takes_punct_branch (doc : List (List Char))
    (maxW maxW2 j : Nat) (tok : List Char)
    (hpunct : normalize_token_pass1 tok = []) (hraw : strip tok ≠ []) :
    alignStep doc maxW j tok = alignStep doc maxW2 j tok ∧
    ∀ p : Nat, (alignStep doc maxW j tok).1 = some p →
      p < doc.length ∧ strip (doc.getD p []) = strip tok := by
  constructor
  · simp only [alignStep]
    conv_lhs => rw [if_pos ⟨hpunct, hraw⟩]
    conv_rhs => rw [if_pos ⟨hpunct, hraw⟩]
  · intro p hp
    simp only [alignStep] at hp
    rw [if_pos ⟨hpunct, hraw⟩] at hp
    split at hp
    · next hcond =>
      dsimp only at hp
      cases hp
      exact hcond
    · dsimp only at hp
      cases hp

theorem C8_witness :
    alignStep [['.']] 4 0 [' ', '.'] = alignStep [['.']] 9 0 [' ', '.'] ∧
    ∀ p : Nat, (alignStep [['.']] 4 0 [' ', '.']).1 = some p →
      p < ([['.']] : List (List Char)).length ∧
      strip (([['.']] : List (List Char)).getD p []) = strip [' ', '.'] :=
  C8_empty_form_takes_punct_branch [['.']] 4 9 0 [' ', '.']
    (by decide) (by decide)

/-- C9: the aligner cursor moves only forward and stays bounded by the
annotation-sequence length at every step, and the depth walk is cut off
by the step cap (at most 51 on any input, cyclic head data included), so
both calls terminate with bounded work. -/
theorem C9_termination_bounds (doc : List (List Char)) (maxW j : Nat)
    (tok : List Char) (hj : j ≤ doc.length) :
    (j ≤ (alignStep doc maxW j tok).2 ∧
      (alignStep doc maxW j tok).2 ≤ doc.length) ∧
    ∀ (d : SpacyDoc) (i : Nat), dep_depth d i ≤ 51 := by
  refine ⟨(alignStep_spec doc maxW j tok hj).1, fun d i => ?_⟩
  unfold dep_depth
  exact depLoop_le d _ 50 0 i

theorem C9_witness :
    (0 ≤ (alignStep [['a']] 4 0 ['a']).2 ∧
      (alignStep [['a']] 4 0 ['a']).2 ≤ 1) ∧
    dep_depth (SpacyDoc.mk (fun i => i) []) 0 ≤ 51 :=
  ⟨(C9_termination_bounds [['a']] 4 0 ['a'] (by decide)).1,
   (C9_termination_bounds [['a']] 4 0 ['a'] (by decide)).2
     (SpacyDoc.mk (fun i => i) []) 0⟩

end SyntaxUtils
